import Mathlib

/-!
Verification of the ensemble aggregation and influence-analysis engine of a
multi-label food-image classification project.

The per-model predictor adapter (sigmoid-probability thresholding with an
argmax fallback that guarantees at least one label per sample) is embedded
over rows as lists of rationals.  The ensemble aggregator (weight
normalization, weighted voting, conflict analysis and leave-one-out
decisiveness) is embedded over matrices as functions from sample and label
indices to rationals, matching the dense-tensor operations of the source
notebooks.  Probabilities and weights are modelled as exact rationals.
-/

namespace FoodEnsemble

/-! ### Per-model predictor adapter

Source: the per-model prediction loop of the ensemble notebook
(`preds = (probs > threshold).float()` followed by the per-row fallback
`if preds[i].sum() == 0: preds[i, torch.argmax(probs[i])] = 1`), and the
identical loop in the individual notebook using `np.argmax`.
-/

/-- Accumulator for the first-occurrence argmax: `i` is the absolute index
of the head of the remaining list, `b` the best index seen so far, `bv` its
value.  A later element displaces the current best only when it is strictly
greater, which is exactly the behaviour of the numeric argmax routines used
by the source (both return the lowest index attaining the maximum). -/
def argmaxAux : List ℚ → ℕ → ℕ → ℚ → ℕ
  | [], _, b, _ => b
  | x :: xs, i, b, bv =>
      if x > bv then argmaxAux xs (i + 1) i x else argmaxAux xs (i + 1) b bv

/-- Index of the first occurrence of the maximum of the list (`0` on `[]`).
Embeds `torch.argmax(probs[i])` / `np.argmax(probs[i])` on one row. -/
def argmax : List ℚ → ℕ
  | [] => 0
  | x :: xs => argmaxAux xs 1 0 x

/-- One row of `(probs > threshold).float()`: entrywise strict threshold. -/
def thresholdRow (t : ℚ) (probs : List ℚ) : List ℚ :=
  probs.map (fun p => if p > t then 1 else 0)

/-- One row of the adapter output: threshold, then, when the thresholded row
sums to zero, set the entry at the argmax of the probabilities to one. -/
def predsRow (t : ℚ) (probs : List ℚ) : List ℚ :=
  let preds := thresholdRow t probs
  if preds.sum = 0 then preds.set (argmax probs) 1 else preds

/-- The adapter on a whole probability matrix (list of rows). -/
def predsMatrix (t : ℚ) (P : List (List ℚ)) : List (List ℚ) :=
  P.map (predsRow t)

/-- Specification predicate: `j` is the first-occurring (lowest) index of
the maximum value of `l` — every entry is at most `l[j]`, and every entry
strictly before `j` is strictly below `l[j]`. -/
def isFirstArgmax (l : List ℚ) (j : ℕ) : Prop :=
  j < l.length ∧ (∀ m, m < l.length → l.getD m 0 ≤ l.getD j 0) ∧
    ∀ m, m < j → l.getD m 0 < l.getD j 0

lemma argmaxAux_spec (xs : List ℚ) : ∀ (i b : ℕ) (bv : ℚ),
    (argmaxAux xs i b bv = b ∧ ∀ m, m < xs.length → xs.getD m 0 ≤ bv) ∨
    (∃ k, k < xs.length ∧ argmaxAux xs i b bv = i + k ∧ bv < xs.getD k 0 ∧
      (∀ m, m < xs.length → xs.getD m 0 ≤ xs.getD k 0) ∧
      (∀ m, m < k → xs.getD m 0 < xs.getD k 0)) := by
  induction xs with
  | nil =>
      intro i b bv
      left
      exact ⟨rfl, by intro m hm; simp at hm⟩
  | cons x xs ih =>
      intro i b bv
      by_cases hx : bv < x
      · rcases ih (i + 1) i x with ⟨heq, hle⟩ | ⟨k, hk, heq, hlt, hmax, hfirst⟩
        · right
          refine ⟨0, by simp, ?_, by simpa using hx, ?_, ?_⟩
          · show argmaxAux (x :: xs) i b bv = i + 0
            simp only [argmaxAux, if_pos hx]
            rw [heq]
            omega
          · intro m hm
            match m with
            | 0 => simp
            | m + 1 =>
                simp only [List.getD_cons_succ, List.getD_cons_zero]
                exact hle m (by simpa using hm)
          · intro m hm
            exact absurd hm (Nat.not_lt_zero m)
        · right
          refine ⟨k + 1, by simpa using hk, ?_, ?_, ?_, ?_⟩
          · show argmaxAux (x :: xs) i b bv = i + (k + 1)
            simp only [argmaxAux, if_pos hx]
            rw [heq]
            omega
          · simpa [List.getD_cons_succ] using lt_trans hx hlt
          · intro m hm
            match m with
            | 0 =>
                simp only [List.getD_cons_succ, List.getD_cons_zero]
                exact le_of_lt hlt
            | m + 1 =>
                simp only [List.getD_cons_succ]
                exact hmax m (by simpa using hm)
          · intro m hm
            match m with
            | 0 =>
                simp only [List.getD_cons_succ, List.getD_cons_zero]
                exact hlt
            | m + 1 =>
                simp only [List.getD_cons_succ]
                exact hfirst m (by omega)
      · rcases ih (i + 1) b bv with ⟨heq, hle⟩ | ⟨k, hk, heq, hlt, hmax, hfirst⟩
        · left
          constructor
          · show argmaxAux (x :: xs) i b bv = b
            simp only [argmaxAux, if_neg hx]
            exact heq
          · intro m hm
            match m with
            | 0 => simpa using le_of_not_lt hx
            | m + 1 =>
                simp only [List.getD_cons_succ]
                exact hle m (by simpa using hm)
        · right
          refine ⟨k + 1, by simpa using hk, ?_, ?_, ?_, ?_⟩
          · show argmaxAux (x :: xs) i b bv = i + (k + 1)
            simp only [argmaxAux, if_neg hx]
            rw [heq]
            omega
          · simpa [List.getD_cons_succ] using hlt
          · intro m hm
            match m with
            | 0 =>
                simp only [List.getD_cons_succ, List.getD_cons_zero]
                exact le_of_lt (lt_of_le_of_lt (le_of_not_lt hx) hlt)
            | m + 1 =>
                simp only [List.getD_cons_succ]
                exact hmax m (by simpa using hm)
          · intro m hm
            match m with
            | 0 =>
                simp only [List.getD_cons_succ, List.getD_cons_zero]
                exact lt_of_le_of_lt (le_of_not_lt hx) hlt
            | m + 1 =>
                simp only [List.getD_cons_succ]
                exact hfirst m (by omega)

/-- The source's argmax returns the first-occurring index of the maximum. -/
lemma argmax_spec (l : List ℚ) (h : l ≠ []) : isFirstArgmax l (argmax l) := by
  match l with
  | x :: xs =>
      show isFirstArgmax (x :: xs) (argmaxAux xs 1 0 x)
      rcases argmaxAux_spec xs 1 0 x with ⟨heq, hle⟩ | ⟨k, hk, heq, hlt, hmax, hfirst⟩
      · rw [heq]
        refine ⟨by simp, ?_, ?_⟩
        · intro m hm
          match m with
          | 0 => simp
          | m + 1 =>
              simp only [List.getD_cons_succ, List.getD_cons_zero]
              exact hle m (by simpa using hm)
        · intro m hm
          exact absurd hm (Nat.not_lt_zero m)
      · have heq' : argmaxAux xs 1 0 x = k + 1 := by omega
        rw [heq']
        refine ⟨by simpa using hk, ?_, ?_⟩
        · intro m hm
          match m with
          | 0 =>
              simp only [List.getD_cons_succ, List.getD_cons_zero]
              exact le_of_lt hlt
          | m + 1 =>
              simp only [List.getD_cons_succ]
              exact hmax m (by simpa using hm)
        · intro m hm
          match m with
          | 0 =>
              simp only [List.getD_cons_succ, List.getD_cons_zero]
              exact hlt
          | m + 1 =>
              simp only [List.getD_cons_succ]
              exact hfirst m (by omega)

lemma argmax_lt_length (l : List ℚ) (h : l ≠ []) : argmax l < l.length :=
  (argmax_spec l h).1

/-! #### Row-level lemmas about thresholding and the fallback -/

lemma getD_map {α β : Type} (f : α → β) (dA : α) (dB : β) :
    ∀ (l : List α) (i : ℕ), i < l.length → (l.map f).getD i dB = f (l.getD i dA) := by
  intro l
  induction l with
  | nil => intro i hi; simp at hi
  | cons x xs ih =>
      intro i hi
      match i with
      | 0 => simp
      | i + 1 => simpa using ih i (by simpa using hi)

lemma mem_thresholdRow (t : ℚ) (row : List ℚ) :
    ∀ x ∈ thresholdRow t row, x = 0 ∨ x = 1 := by
  intro x hx
  simp only [thresholdRow, List.mem_map] at hx
  obtain ⟨p, _, rfl⟩ := hx
  by_cases h : p > t
  · right; simp [h]
  · left; simp [h]

lemma binary_nonneg (l : List ℚ) (h : ∀ x ∈ l, x = 0 ∨ x = 1) :
    ∀ x ∈ l, (0 : ℚ) ≤ x := by
  intro x hx
  rcases h x hx with h0 | h1
  · rw [h0]
  · rw [h1]; norm_num

lemma thresholdRow_length (t : ℚ) (row : List ℚ) :
    (thresholdRow t row).length = row.length :=
  List.length_map row _

lemma sum_of_all_zero (l : List ℚ) (h : ∀ x ∈ l, x = 0) : l.sum = 0 := by
  induction l with
  | nil => simp
  | cons x xs ih =>
      rw [List.sum_cons, h x (List.mem_cons_self x xs), zero_add]
      exact ih (fun y hy => h y (List.mem_cons_of_mem x hy))

lemma thresholdRow_all_zero (t : ℚ) (row : List ℚ) (hall : ∀ p ∈ row, p ≤ t) :
    ∀ x ∈ thresholdRow t row, x = 0 := by
  intro x hx
  simp only [thresholdRow, List.mem_map] at hx
  obtain ⟨p, hp, rfl⟩ := hx
  simp [not_lt_of_le (hall p hp)]

/-- The fallback guard `preds[i].sum() == 0` fires exactly on rows with no
probability strictly above the threshold. -/
lemma thresholdRow_sum_zero_iff (t : ℚ) (row : List ℚ) :
    (thresholdRow t row).sum = 0 ↔ ∀ p ∈ row, p ≤ t := by
  constructor
  · intro h p hp
    by_contra hgt
    push_neg at hgt
    have h1 : (1 : ℚ) ∈ thresholdRow t row := by
      simp only [thresholdRow, List.mem_map]
      exact ⟨p, hp, by simp [hgt]⟩
    have hle : (1 : ℚ) ≤ (thresholdRow t row).sum :=
      List.single_le_sum (binary_nonneg _ (mem_thresholdRow t row)) 1 h1
    rw [h] at hle
    norm_num at hle
  · intro h
    exact sum_of_all_zero _ (thresholdRow_all_zero t row h)

lemma sum_set_one_of_all_zero :
    ∀ (l : List ℚ) (j : ℕ), (∀ x ∈ l, x = 0) → j < l.length → (l.set j 1).sum = 1 := by
  intro l
  induction l with
  | nil => intro j _ hj; simp at hj
  | cons x xs ih =>
      intro j hall hj
      match j with
      | 0 =>
          simp only [List.set_cons_zero, List.sum_cons]
          rw [sum_of_all_zero xs (fun y hy => hall y (List.mem_cons_of_mem x hy))]
          norm_num
      | j + 1 =>
          simp only [List.set_cons_succ, List.sum_cons]
          rw [hall x (List.mem_cons_self x xs),
            ih j (fun y hy => hall y (List.mem_cons_of_mem x hy)) (by simpa using hj)]
          norm_num

/-- A row with at least one probability above the threshold is returned
unchanged: the fallback branch does not fire. -/
lemma predsRow_of_exists (t : ℚ) (row : List ℚ) (hex : ∃ p ∈ row, t < p) :
    predsRow t row = thresholdRow t row := by
  have h : (thresholdRow t row).sum ≠ 0 := by
    rw [Ne, thresholdRow_sum_zero_iff]
    push_neg
    exact hex
  simp [predsRow, h]

/-- On an all-below-threshold row the fallback fires and sets the argmax
entry of the (all-zero) thresholded row to one. -/
lemma predsRow_of_forall (t : ℚ) (row : List ℚ) (hall : ∀ p ∈ row, p ≤ t) :
    predsRow t row = (thresholdRow t row).set (argmax row) 1 := by
  have h : (thresholdRow t row).sum = 0 := (thresholdRow_sum_zero_iff t row).mpr hall
  simp [predsRow, h]

lemma predsRow_sum_of_forall (t : ℚ) (row : List ℚ) (hne : row ≠ [])
    (hall : ∀ p ∈ row, p ≤ t) : (predsRow t row).sum = 1 := by
  rw [predsRow_of_forall t row hall]
  exact sum_set_one_of_all_zero _ _ (thresholdRow_all_zero t row hall)
    (by rw [thresholdRow_length]; exact argmax_lt_length row hne)

lemma one_le_sum_of_binary (l : List ℚ) (hbin : ∀ x ∈ l, x = 0 ∨ x = 1)
    (h : l.sum ≠ 0) : 1 ≤ l.sum := by
  induction l with
  | nil => simp at h
  | cons x xs ih =>
      rcases hbin x (List.mem_cons_self x xs) with h0 | h1
      · subst h0
        simp only [List.sum_cons, zero_add] at h ⊢
        exact ih (fun y hy => hbin y (List.mem_cons_of_mem _ hy)) h
      · subst h1
        simp only [List.sum_cons]
        have hnn : 0 ≤ xs.sum :=
          List.sum_nonneg (binary_nonneg _ (fun y hy => hbin y (List.mem_cons_of_mem _ hy)))
        linarith

lemma one_le_predsRow_sum (t : ℚ) (row : List ℚ) (hne : row ≠ []) :
    1 ≤ (predsRow t row).sum := by
  by_cases h : ∀ p ∈ row, p ≤ t
  · rw [predsRow_sum_of_forall t row hne h]
  · push_neg at h
    rw [predsRow_of_exists t row (by obtain ⟨p, hp, hpt⟩ := h; exact ⟨p, hp, hpt⟩)]
    refine one_le_sum_of_binary _ (mem_thresholdRow t row) ?_
    rw [Ne, thresholdRow_sum_zero_iff]
    push_neg
    exact h

lemma mem_predsRow_binary (t : ℚ) (row : List ℚ) :
    ∀ x ∈ predsRow t row, x = 0 ∨ x = 1 := by
  intro x hx
  by_cases h : (thresholdRow t row).sum = 0
  · rw [show predsRow t row = (thresholdRow t row).set (argmax row) 1 from by
      simp [predsRow, h]] at hx
    rcases List.mem_or_eq_of_mem_set hx with hmem | rfl
    · exact mem_thresholdRow t row x hmem
    · right; rfl
  · rw [show predsRow t row = thresholdRow t row from by simp [predsRow, h]] at hx
    exact mem_thresholdRow t row x hx

lemma predsRow_length (t : ℚ) (row : List ℚ) :
    (predsRow t row).length = row.length := by
  by_cases h : (thresholdRow t row).sum = 0 <;>
    simp [predsRow, h, List.length_set, thresholdRow_length]

lemma predsMatrix_length (t : ℚ) (P : List (List ℚ)) :
    (predsMatrix t P).length = P.length :=
  List.length_map P _

lemma predsMatrix_getD (t : ℚ) (P : List (List ℚ)) (i : ℕ) (hi : i < P.length) :
    (predsMatrix t P).getD i [] = predsRow t (P.getD i []) :=
  getD_map (predsRow t) [] [] P i hi

/-! #### Claim theorems about the adapter -/

/-- C2: for every probability matrix `P` and threshold `t ∈ (0,1)`, the
adapter preserves the number of rows; a row with some probability strictly
above `t` is mapped to its entrywise strict-threshold indicator unchanged;
and a row with every probability at most `t` is mapped to its (all-zero)
thresholded row with the entry at the argmax of the probabilities set to 1,
where that argmax is the first-occurring (lowest) index of the row maximum,
ties between equal maxima going to the earlier index. -/
theorem c2_adapter_threshold_fallback (t : ℚ) (ht0 : 0 < t) (ht1 : t < 1)
    (P : List (List ℚ)) (i : ℕ) (hi : i < P.length) :
    (predsMatrix t P).length = P.length ∧
    ((∃ p ∈ P.getD i [], t < p) →
      (predsMatrix t P).getD i [] =
        (P.getD i []).map (fun p => if t < p then 1 else 0)) ∧
    ((∀ p ∈ P.getD i [], p ≤ t) → P.getD i [] ≠ [] →
      (predsMatrix t P).getD i [] =
        (thresholdRow t (P.getD i [])).set (argmax (P.getD i [])) 1 ∧
      isFirstArgmax (P.getD i []) (argmax (P.getD i []))) := by
  refine ⟨predsMatrix_length t P, ?_, ?_⟩
  · intro hex
    rw [predsMatrix_getD t P i hi, predsRow_of_exists t (P.getD i []) hex]
    rfl
  · intro hall hne
    exact ⟨by rw [predsMatrix_getD t P i hi, predsRow_of_forall t (P.getD i []) hall],
      argmax_spec _ hne⟩

/-- Witness for C2 at `t = 1/2`, `P = [[3/4, 1/4]]`, row 0. -/
theorem c2_witness :
    (0 : ℚ) < 1/2 ∧ (1/2 : ℚ) < 1 ∧ 0 < ([[(3 : ℚ)/4, 1/4]] : List (List ℚ)).length ∧
    ((predsMatrix (1/2) [[(3 : ℚ)/4, 1/4]]).length = ([[(3 : ℚ)/4, 1/4]] : List (List ℚ)).length ∧
      ((∃ p ∈ ([[(3 : ℚ)/4, 1/4]] : List (List ℚ)).getD 0 [], (1/2 : ℚ) < p) →
        (predsMatrix (1/2) [[(3 : ℚ)/4, 1/4]]).getD 0 [] =
          (([[(3 : ℚ)/4, 1/4]] : List (List ℚ)).getD 0 []).map
            (fun p => if (1/2 : ℚ) < p then 1 else 0)) ∧
      ((∀ p ∈ ([[(3 : ℚ)/4, 1/4]] : List (List ℚ)).getD 0 [], p ≤ (1/2 : ℚ)) →
        ([[(3 : ℚ)/4, 1/4]] : List (List ℚ)).getD 0 [] ≠ [] →
        (predsMatrix (1/2) [[(3 : ℚ)/4, 1/4]]).getD 0 [] =
          (thresholdRow (1/2) (([[(3 : ℚ)/4, 1/4]] : List (List ℚ)).getD 0 [])).set
            (argmax (([[(3 : ℚ)/4, 1/4]] : List (List ℚ)).getD 0 [])) 1 ∧
        isFirstArgmax (([[(3 : ℚ)/4, 1/4]] : List (List ℚ)).getD 0 [])
          (argmax (([[(3 : ℚ)/4, 1/4]] : List (List ℚ)).getD 0 [])))) :=
  ⟨by norm_num, by norm_num, by simp,
    c2_adapter_threshold_fallback (1/2) (by norm_num) (by norm_num)
      [[(3 : ℚ)/4, 1/4]] 0 (by simp)⟩

/-- C3: every row of the adapter output has row-sum at least 1; a row with
some probability strictly above the threshold is returned as its thresholded
row (the fallback never fires there) and still has row-sum at least 1; a row
whose probabilities are all at most the threshold gets row-sum exactly 1
from the fallback. -/
theorem c3_no_empty_row (t : ℚ) (P : List (List ℚ)) (hne : ∀ row ∈ P, row ≠ []) :
    (∀ row ∈ predsMatrix t P, 1 ≤ row.sum) ∧
    (∀ row ∈ P, (∃ p ∈ row, t < p) →
      predsRow t row = thresholdRow t row ∧ 1 ≤ (predsRow t row).sum) ∧
    (∀ row ∈ P, (∀ p ∈ row, p ≤ t) → (predsRow t row).sum = 1) := by
  refine ⟨?_, ?_, ?_⟩
  · intro row hrow
    simp only [predsMatrix, List.mem_map] at hrow
    obtain ⟨r, hr, rfl⟩ := hrow
    exact one_le_predsRow_sum t r (hne r hr)
  · intro row hrow hex
    exact ⟨predsRow_of_exists t row hex, one_le_predsRow_sum t row (hne row hrow)⟩
  · intro row hrow hall
    exact predsRow_sum_of_forall t row (hne row hrow) hall

/-- Witness for C3 at `t = 1/2`, `P = [[3/4, 1/4], [1/4, 1/4]]`. -/
theorem c3_witness :
    (∀ row ∈ ([[(3 : ℚ)/4, 1/4], [1/4, 1/4]] : List (List ℚ)), row ≠ []) ∧
    ((∀ row ∈ predsMatrix (1/2) [[(3 : ℚ)/4, 1/4], [1/4, 1/4]], 1 ≤ row.sum) ∧
      (∀ row ∈ ([[(3 : ℚ)/4, 1/4], [1/4, 1/4]] : List (List ℚ)),
        (∃ p ∈ row, (1/2 : ℚ) < p) →
          predsRow (1/2) row = thresholdRow (1/2) row ∧ 1 ≤ (predsRow (1/2) row).sum) ∧
      (∀ row ∈ ([[(3 : ℚ)/4, 1/4], [1/4, 1/4]] : List (List ℚ)),
        (∀ p ∈ row, p ≤ (1/2 : ℚ)) → (predsRow (1/2) row).sum = 1)) :=
  ⟨by simp, c3_no_empty_row (1/2) [[(3 : ℚ)/4, 1/4], [1/4, 1/4]] (by simp)⟩

/-- C9 amended: the prediction loop performs no shape or threshold
validation.  For every probability matrix (rectangular or not, any column
count) and every threshold (inside `(0,1)` or not) the adapter produces a
binary prediction matrix with the same row count and row lengths; no
failure path exists. -/
theorem c9_no_validation (t : ℚ) (P : List (List ℚ)) (i : ℕ) :
    (predsMatrix t P).length = P.length ∧
    ((predsMatrix t P).getD i []).length = (P.getD i []).length ∧
    ∀ row ∈ predsMatrix t P, ∀ x ∈ row, x = 0 ∨ x = 1 := by
  refine ⟨predsMatrix_length t P, ?_, ?_⟩
  · by_cases hi : i < P.length
    · rw [predsMatrix_getD t P i hi, predsRow_length]
    · push_neg at hi
      rw [List.getD_eq_default _ _ (by rw [predsMatrix_length]; exact hi),
        List.getD_eq_default _ _ hi]
  · intro row hrow
    simp only [predsMatrix, List.mem_map] at hrow
    obtain ⟨r, _, rfl⟩ := hrow
    exact mem_predsRow_binary t r

/-- C9 counterexample: at threshold `3/2 ∉ (0,1)` and a ragged two-column
input (so in particular not of label cardinality 498), the adapter neither
fails with InvalidThreshold nor with ShapeMismatch: it produces the binary
prediction matrix `[[1, 0], [1]]` by pure fallback. -/
theorem c9_counterexample :
    ¬ ((3 : ℚ)/2 < 1) ∧
    predsMatrix (3/2) [[(1 : ℚ)/2, 1/4], [(1 : ℚ)/3]] = [[1, 0], [1]] := by
  constructor
  · norm_num
  · norm_num [predsMatrix, predsRow, thresholdRow, argmax, argmaxAux]

/-! ### Ensemble aggregator

Source: the ensemble notebook.  Stacked binary prediction matrices are
embedded as functions from sample and label indices to rationals, matching
the dense tensor `stacked_preds[m, n, c]`; the contraction
`einsum('mnc,m->nc', stacked_preds, weights)` is the weight-weighted sum of
the ballots at each cell.  A voting model is a (normalized weight, ballot)
pair, so the leave-one-out removal `cat(xs[:m], xs[m+1:])` applied to both
the weights and the stacked ballots is `List.eraseIdx` on the paired list.
-/

/-- A dense matrix indexed by sample and label. -/
abbrev Mat := ℕ → ℕ → ℚ

/-- A voting model: normalized weight paired with its binary ballot. -/
abbrev WModel := ℚ × Mat

/-- Placeholder model used as a `getD` default. -/
def defaultWModel : WModel := (0, fun _ _ => 0)

/-- View a list-of-rows matrix as a dense matrix (0 outside the lists). -/
def matOfList (m : List (List ℚ)) : Mat := fun i j => (m.getD i []).getD j 0

/-- Cell `(i, j)` of `einsum('mnc,m->nc', stacked_preds, weights)`. -/
def weighted_votes (wbs : List WModel) (i j : ℕ) : ℚ :=
  (wbs.map (fun p => p.1 * p.2 i j)).sum

/-- Cell `(i, j)` of `ensemble_decision = (weighted_votes > 0.5).float()`. -/
def ensemble_decision (wbs : List WModel) (i j : ℕ) : ℚ :=
  if weighted_votes wbs i j > 1/2 then 1 else 0

/-- Cell `(i, j)` of `vote_sum = stacked_preds.sum(dim=0)`. -/
def vote_sum (bs : List Mat) (i j : ℕ) : ℚ :=
  (bs.map (fun B => B i j)).sum

/-- Cell `(i, j)` of `conflicts = (vote_sum != 0) & (vote_sum != num_models)`. -/
def conflicts (bs : List Mat) (i j : ℕ) : Bool :=
  decide (vote_sum bs i j ≠ 0 ∧ vote_sum bs i j ≠ (bs.length : ℚ))

/-- `conflict_votes = conflicts.sum().item()` over an `S × C` grid. -/
def conflict_votes (bs : List Mat) (S C : ℕ) : ℕ :=
  ((List.range S).map (fun i => (List.range C).countP (fun j => conflicts bs i j))).sum

/-- Conflict rate: contested cells over total cells. -/
def conflictRate (bs : List Mat) (S C : ℕ) : ℚ :=
  (conflict_votes bs S C : ℚ) / ((S : ℚ) * (C : ℚ))

/-- `new_decision`: the decision recomputed from `other_models` and
`other_weights`, i.e. with model `k` removed and the remaining models
keeping their original normalized weights. -/
def new_decision (wbs : List WModel) (k : ℕ) (i j : ℕ) : ℚ :=
  ensemble_decision (wbs.eraseIdx k) i j

/-- `decisive_votes[k] = flipped_votes.sum()`: the number of cells whose
decision flips when model `k` is removed. -/
def decisive_votes (wbs : List WModel) (k : ℕ) (S C : ℕ) : ℕ :=
  ((List.range S).map (fun i =>
    (List.range C).countP
      (fun j => decide (ensemble_decision wbs i j ≠ new_decision wbs k i j)))).sum

/-- Decisiveness of model `k` as a fraction of all `S × C` cells. -/
def decisiveFrac (wbs : List WModel) (k : ℕ) (S C : ℕ) : ℚ :=
  (decisive_votes wbs k S C : ℚ) / ((S : ℚ) * (C : ℚ))

/-- Sum of row `i` of a dense matrix over the first `C` columns. -/
def rowSum (B : Mat) (C i : ℕ) : ℚ :=
  ((List.range C).map (fun j => B i j)).sum

/-- Error taxonomy for the failure modes that exist in the aggregation
code: the filename-order assertion, and the division by zero raised at the
weight-normalization site when the raw weights sum to 0. -/
inductive AggError where
  | orderMismatch : AggError
  | degenerateWeights : AggError
deriving DecidableEq

/-- Weight normalization (`total_weight = sum(m["raw_weight"] ...)`, then
`m["weight"] = m["raw_weight"] / total_weight` per model).  The division
raises — Python ZeroDivisionError, the spec's DegenerateWeights — exactly
when the model list is nonempty and the total is 0; the code contains no
check for a negative total. -/
def normalizeWeights (ws : List ℚ) : Except AggError (List ℚ) :=
  if ws.sum = 0 ∧ ws ≠ [] then Except.error AggError.degenerateWeights
  else Except.ok (ws.map (fun w => w / ws.sum))

/-- One model's aggregation input: normalized weight, binary ballot, and
the sample-identity (filename) sequence its rows follow. -/
abbrev EnsembleInput := ℚ × Mat × List String

/-- The filename consistency assertion of the prediction loop: the first
model's filename sequence is kept as `ensemble_filenames`, and every later
model's sequence is asserted equal to it
(`assert ensemble_filenames == model_filenames`). -/
def checkFilenames (seqs : List (List String)) : Except AggError (Option (List String)) :=
  match seqs with
  | [] => Except.ok none
  | f :: rest =>
      if rest.all (fun g => decide (g = f)) then Except.ok (some f)
      else Except.error AggError.orderMismatch

/-- The aggregation pipeline: run the per-model filename assertion of the
prediction loop, then produce the weighted-vote Final Decision Matrix.  A
failed assertion aborts the run before any vote is computed. -/
def runEnsemble (models : List EnsembleInput) : Except AggError Mat := do
  let _ ← checkFilenames (models.map (fun m => m.2.2))
  Except.ok (fun i j => ensemble_decision (models.map (fun m => (m.1, m.2.1))) i j)

/-! #### Helper lemmas for the aggregator -/

lemma sum_map_eraseIdx {α : Type} (f : α → ℚ) (d : α) :
    ∀ (l : List α) (k : ℕ), k < l.length →
      (l.map f).sum = f (l.getD k d) + ((l.eraseIdx k).map f).sum := by
  intro l
  induction l with
  | nil => intro k hk; simp at hk
  | cons x xs ih =>
      intro k hk
      match k with
      | 0 => simp
      | k + 1 =>
          have h := ih k (by simpa using hk)
          simp only [List.eraseIdx_cons_succ, List.getD_cons_succ, List.map_cons,
            List.sum_cons]
          rw [h]
          ring

lemma list_sum_const_rat (l : List ℚ) (c : ℚ) (h : ∀ x ∈ l, x = c) :
    l.sum = l.length * c := by
  induction l with
  | nil => simp
  | cons x xs ih =>
      rw [List.sum_cons, h x (List.mem_cons_self x xs),
        ih (fun y hy => h y (List.mem_cons_of_mem x hy))]
      simp only [List.length_cons]
      push_cast
      ring

lemma list_sum_const_nat (l : List ℕ) (c : ℕ) (h : ∀ x ∈ l, x = c) :
    l.sum = l.length * c := by
  induction l with
  | nil => simp
  | cons x xs ih =>
      rw [List.sum_cons, h x (List.mem_cons_self x xs),
        ih (fun y hy => h y (List.mem_cons_of_mem x hy))]
      simp only [List.length_cons]
      ring

/-- Removing a zero-weight model leaves each weighted vote unchanged. -/
lemma weighted_votes_eraseIdx (wbs : List WModel) (k : ℕ) (hk : k < wbs.length)
    (hw : (wbs.getD k defaultWModel).1 = 0) (i j : ℕ) :
    weighted_votes (wbs.eraseIdx k) i j = weighted_votes wbs i j := by
  unfold weighted_votes
  rw [sum_map_eraseIdx (fun p => p.1 * p.2 i j) defaultWModel wbs k hk, hw]
  ring

/-- A `checkFilenames` success means every sequence equals the first, hence
any two sequences are equal. -/
lemma checkFilenames_ok_pairwise (seqs : List (List String)) (o : Option (List String))
    (h : checkFilenames seqs = Except.ok o) :
    ∀ a ∈ seqs, ∀ b ∈ seqs, a = b := by
  match seqs with
  | [] => intro a ha; simp at ha
  | f :: rest =>
      by_cases hall : rest.all (fun g => decide (g = f))
      · intro a ha b hb
        have hmem : ∀ c ∈ f :: rest, c = f := by
          intro c hc
          rcases List.mem_cons.mp hc with rfl | hc
          · rfl
          · simpa using List.all_eq_true.mp hall c hc
        rw [hmem a ha, hmem b hb]
      · rw [show checkFilenames (f :: rest) = Except.error AggError.orderMismatch from by
          simp only [checkFilenames, if_neg hall]] at h
        exact absurd h (by simp)

lemma checkFilenames_error (seqs : List (List String))
    (h : ¬ ∀ a ∈ seqs, ∀ b ∈ seqs, a = b) :
    checkFilenames seqs = Except.error AggError.orderMismatch := by
  match seqs with
  | [] =>
      exact absurd (by intro a ha; simp at ha) h
  | f :: rest =>
      by_cases hall : rest.all (fun g => decide (g = f))
      · refine absurd ?_ h
        exact checkFilenames_ok_pairwise (f :: rest) (some f)
          (by simp only [checkFilenames, if_pos hall])
      · simp only [checkFilenames, if_neg hall]

/-! #### Claim theorems about the aggregator -/

/-- The three-model example scenario: weights `[0.5, 0.3, 0.2]` and ballots
`[[1,0],[1,1]]`, `[[1,0],[0,1]]`, `[[0,1],[1,0]]`. -/
def exampleModels : List WModel :=
  [(1/2, matOfList [[1, 0], [1, 1]]),
   (3/10, matOfList [[1, 0], [0, 1]]),
   (1/5, matOfList [[0, 1], [1, 0]])]

/-- C1: with normalized weights summing to 1, the Final Decision Matrix has
a 1 at a cell exactly when the weighted vote there strictly exceeds 1/2,
and a 0 exactly when the weighted vote is at most 1/2 (so a tie at exactly
1/2 yields 0); and on the three-model example with weights
`[1/2, 3/10, 1/5]` the Final Decision Matrix is `[[1, 0], [1, 1]]`. -/
theorem c1_weighted_majority (wbs : List WModel) (i j : ℕ)
    (hw : (wbs.map Prod.fst).sum = 1) :
    (ensemble_decision wbs i j = 1 ↔ 1/2 < weighted_votes wbs i j) ∧
    (ensemble_decision wbs i j = 0 ↔ weighted_votes wbs i j ≤ 1/2) ∧
    (ensemble_decision exampleModels 0 0 = 1 ∧ ensemble_decision exampleModels 0 1 = 0 ∧
      ensemble_decision exampleModels 1 0 = 1 ∧ ensemble_decision exampleModels 1 1 = 1) := by
  refine ⟨?_, ?_, ?_⟩
  · by_cases h : (1 : ℚ)/2 < weighted_votes wbs i j
    · simp only [ensemble_decision, gt_iff_lt, if_pos h]
      exact ⟨fun _ => h, fun _ => trivial⟩
    · simp only [ensemble_decision, gt_iff_lt, if_neg h]
      exact ⟨fun h0 => absurd h0 zero_ne_one, fun hlt => absurd hlt h⟩
  · by_cases h : (1 : ℚ)/2 < weighted_votes wbs i j
    · simp only [ensemble_decision, gt_iff_lt, if_pos h]
      exact ⟨fun h1 => absurd h1 one_ne_zero, fun hle => absurd h (not_lt.mpr hle)⟩
    · simp only [ensemble_decision, gt_iff_lt, if_neg h]
      exact ⟨fun _ => le_of_not_lt h, fun _ => trivial⟩
  · norm_num [ensemble_decision, weighted_votes, exampleModels, matOfList]

/-- Witness for C1 on the three-model example at cell (0, 0). -/
theorem c1_witness :
    ((exampleModels.map Prod.fst).sum = 1) ∧
    ((ensemble_decision exampleModels 0 0 = 1 ↔
        1/2 < weighted_votes exampleModels 0 0) ∧
      (ensemble_decision exampleModels 0 0 = 0 ↔
        weighted_votes exampleModels 0 0 ≤ 1/2) ∧
      (ensemble_decision exampleModels 0 0 = 1 ∧ ensemble_decision exampleModels 0 1 = 0 ∧
        ensemble_decision exampleModels 1 0 = 1 ∧ ensemble_decision exampleModels 1 1 = 1)) :=
  ⟨by norm_num [exampleModels], c1_weighted_majority exampleModels 0 0 (by norm_num [exampleModels])⟩

/-- C4: a model of normalized weight 0 is never decisive: removing it (the
remaining models keeping their original normalized weights) changes no cell
of the Final Decision Matrix, the flipped-cell count over any `S × C` grid
is 0, and so is the flipped-cell fraction. -/
theorem c4_zero_weight_decisiveness (wbs : List WModel) (k : ℕ) (hk : k < wbs.length)
    (hw : (wbs.getD k defaultWModel).1 = 0) (S C i j : ℕ) :
    new_decision wbs k i j = ensemble_decision wbs i j ∧
    decisive_votes wbs k S C = 0 ∧
    decisiveFrac wbs k S C = 0 := by
  have hdec : ∀ i' j' : ℕ, new_decision wbs k i' j' = ensemble_decision wbs i' j' := by
    intro i' j'
    unfold new_decision ensemble_decision
    rw [weighted_votes_eraseIdx wbs k hk hw i' j']
  have hzero : decisive_votes wbs k S C = 0 := by
    unfold decisive_votes
    rw [list_sum_const_nat _ 0 ?_]
    · ring
    · intro x hx
      simp only [List.mem_map] at hx
      obtain ⟨i', _, rfl⟩ := hx
      rw [List.countP_eq_zero]
      intro j' _
      simp [hdec i' j']
  refine ⟨hdec i j, hzero, ?_⟩
  unfold decisiveFrac
  rw [hzero]
  simp

/-- Two-model ensemble whose first model has weight 0, for the C4 witness. -/
def c4Models : List WModel := [(0, matOfList [[1]]), (1, matOfList [[0]])]

/-- Witness for C4 on `c4Models`, removing the zero-weight model 0. -/
theorem c4_witness :
    0 < c4Models.length ∧ (c4Models.getD 0 defaultWModel).1 = 0 ∧
    (new_decision c4Models 0 0 0 = ensemble_decision c4Models 0 0 ∧
      decisive_votes c4Models 0 1 1 = 0 ∧ decisiveFrac c4Models 0 1 1 = 0) :=
  ⟨by norm_num [c4Models], rfl,
    c4_zero_weight_decisiveness c4Models 0 (by norm_num [c4Models]) rfl 1 1 0 0⟩

/-- C5: a cell is contested exactly when the unweighted vote sum across the
`N` binary ballots is neither 0 nor `N`; the conflict rate is the contested
cell count divided by `S·C`; it is 0 when all ballots are identical and 1
when every cell of the grid is contested. -/
theorem c5_conflict_rate (bs : List Mat) (S C i j : ℕ)
    (hbin : ∀ B ∈ bs, ∀ i' j' : ℕ, B i' j' = 0 ∨ B i' j' = 1)
    (hS : 0 < S) (hC : 0 < C) :
    (conflicts bs i j = true ↔
      (vote_sum bs i j ≠ 0 ∧ vote_sum bs i j ≠ (bs.length : ℚ))) ∧
    conflictRate bs S C = (conflict_votes bs S C : ℚ) / ((S : ℚ) * (C : ℚ)) ∧
    ((∀ B ∈ bs, ∀ B' ∈ bs, ∀ i' j' : ℕ, B i' j' = B' i' j') →
      conflictRate bs S C = 0) ∧
    ((∀ i' < S, ∀ j' < C, conflicts bs i' j' = true) → conflictRate bs S C = 1) := by
  refine ⟨by simp [conflicts], rfl, ?_, ?_⟩
  · intro hident
    have hsum : ∀ i' j' : ℕ,
        vote_sum bs i' j' = 0 ∨ vote_sum bs i' j' = (bs.length : ℚ) := by
      intro i' j'
      rcases hbs : bs with _ | ⟨B0, rest⟩
      · left; simp [vote_sum]
      · have hall : ∀ x ∈ (B0 :: rest).map (fun B => B i' j'), x = B0 i' j' := by
          intro x hx
          simp only [List.mem_map] at hx
          obtain ⟨B, hB, rfl⟩ := hx
          exact hident B (hbs ▸ hB) B0 (hbs ▸ List.mem_cons_self B0 rest) i' j'
        have hsum' : vote_sum (B0 :: rest) i' j' =
            ((B0 :: rest).length : ℚ) * (B0 i' j') := by
          unfold vote_sum
          rw [list_sum_const_rat _ _ hall]
          simp
        rcases hbin B0 (hbs ▸ List.mem_cons_self B0 rest) i' j' with h0 | h1
        · left; rw [hsum', h0]; ring
        · right; rw [hsum', h1]; ring
    have hnc : ∀ i' j' : ℕ, conflicts bs i' j' = false := by
      intro i' j'
      rcases hsum i' j' with h | h <;> simp [conflicts, h]
    have hcv : conflict_votes bs S C = 0 := by
      unfold conflict_votes
      rw [list_sum_const_nat _ 0 ?_]
      · ring
      · intro x hx
        simp only [List.mem_map] at hx
        obtain ⟨i', _, rfl⟩ := hx
        rw [List.countP_eq_zero]
        intro j' _
        simp [hnc i' j']
    unfold conflictRate
    rw [hcv]
    simp
  · intro hcont
    have hcv : conflict_votes bs S C = S * C := by
      unfold conflict_votes
      rw [list_sum_const_nat _ C ?_]
      · simp
      · intro x hx
        simp only [List.mem_map] at hx
        obtain ⟨i', hi', rfl⟩ := hx
        have hfull : List.countP (fun j' => conflicts bs i' j') (List.range C) =
            (List.range C).length := by
          rw [List.countP_eq_length]
          intro j' hj'
          simpa using hcont i' (List.mem_range.mp hi') j' (List.mem_range.mp hj')
        rw [hfull, List.length_range]
    unfold conflictRate
    rw [hcv]
    push_cast
    rw [div_self]
    exact ne_of_gt (mul_pos (by exact_mod_cast hS) (by exact_mod_cast hC))

/-- Two constant ballots (all ones and all zeros), for the C5 witness. -/
def c5Mats : List Mat := [fun _ _ => 1, fun _ _ => 0]

/-- Witness for C5 on `c5Mats` with a 1 × 1 grid. -/
theorem c5_witness :
    (∀ B ∈ c5Mats, ∀ i' j' : ℕ, B i' j' = 0 ∨ B i' j' = 1) ∧ (0 : ℕ) < 1 ∧ (0 : ℕ) < 1 ∧
    ((conflicts c5Mats 0 0 = true ↔
        (vote_sum c5Mats 0 0 ≠ 0 ∧ vote_sum c5Mats 0 0 ≠ (c5Mats.length : ℚ))) ∧
      conflictRate c5Mats 1 1 = (conflict_votes c5Mats 1 1 : ℚ) / ((1 : ℚ) * (1 : ℚ)) ∧
      ((∀ B ∈ c5Mats, ∀ B' ∈ c5Mats, ∀ i' j' : ℕ, B i' j' = B' i' j') →
        conflictRate c5Mats 1 1 = 0) ∧
      ((∀ i' < 1, ∀ j' < 1, conflicts c5Mats i' j' = true) → conflictRate c5Mats 1 1 = 1)) := by
  have hbin : ∀ B ∈ c5Mats, ∀ i' j' : ℕ, B i' j' = 0 ∨ B i' j' = 1 := by
    intro B hB i' j'
    simp only [c5Mats, List.mem_cons, List.not_mem_nil, or_false] at hB
    rcases hB with rfl | rfl
    · right; rfl
    · left; rfl
  exact ⟨hbin, Nat.one_pos, Nat.one_pos, c5_conflict_rate c5Mats 1 1 0 0 hbin Nat.one_pos Nat.one_pos⟩

lemma sum_map_div (l : List ℚ) (c : ℚ) : (l.map (fun x => x / c)).sum = l.sum / c := by
  induction l with
  | nil => simp
  | cons x xs ih =>
      simp only [List.map_cons, List.sum_cons, ih]
      ring

/-- C6: for non-negative raw weights with strictly positive sum,
normalization succeeds and returns `w_k / Σw`, of the same length (every
model still participates), non-negative, summing to exactly 1, and sending
raw weight 0 to normalized weight 0. -/
theorem c6_weight_normalization (ws : List ℚ) (hnn : ∀ w ∈ ws, 0 ≤ w)
    (hpos : 0 < ws.sum) :
    ∃ ws', normalizeWeights ws = Except.ok ws' ∧
      ws'.length = ws.length ∧
      (∀ k, k < ws.length → ws'.getD k 0 = ws.getD k 0 / ws.sum) ∧
      ws'.sum = 1 ∧
      (∀ w' ∈ ws', 0 ≤ w') ∧
      (∀ k, k < ws.length → ws.getD k 0 = 0 → ws'.getD k 0 = 0) := by
  have hcond : ¬ (ws.sum = 0 ∧ ws ≠ []) := by
    rintro ⟨h0, -⟩
    rw [h0] at hpos
    exact lt_irrefl 0 hpos
  refine ⟨ws.map (fun w => w / ws.sum), by simp only [normalizeWeights, if_neg hcond],
    List.length_map ws _, ?_, ?_, ?_, ?_⟩
  · intro k hk
    exact getD_map _ 0 0 ws k hk
  · rw [sum_map_div]
    exact div_self (ne_of_gt hpos)
  · intro w' hw'
    simp only [List.mem_map] at hw'
    obtain ⟨w, hw, rfl⟩ := hw'
    exact div_nonneg (hnn w hw) (le_of_lt hpos)
  · intro k hk h0
    rw [getD_map _ 0 0 ws k hk, h0, zero_div]

/-- Witness for C6 at raw weights `[2, 0, 2]`. -/
theorem c6_witness :
    (∀ w ∈ ([2, 0, 2] : List ℚ), 0 ≤ w) ∧ (0 : ℚ) < ([2, 0, 2] : List ℚ).sum ∧
    (∃ ws', normalizeWeights [2, 0, 2] = Except.ok ws' ∧
      ws'.length = ([2, 0, 2] : List ℚ).length ∧
      (∀ k, k < ([2, 0, 2] : List ℚ).length →
        ws'.getD k 0 = ([2, 0, 2] : List ℚ).getD k 0 / ([2, 0, 2] : List ℚ).sum) ∧
      ws'.sum = 1 ∧
      (∀ w' ∈ ws', 0 ≤ w') ∧
      (∀ k, k < ([2, 0, 2] : List ℚ).length →
        ([2, 0, 2] : List ℚ).getD k 0 = 0 → ws'.getD k 0 = 0)) := by
  have hnn : ∀ w ∈ ([2, 0, 2] : List ℚ), 0 ≤ w := by
    intro w hw
    simp only [List.mem_cons, List.not_mem_nil, or_false] at hw
    rcases hw with rfl | rfl | rfl <;> norm_num
  have hpos : (0 : ℚ) < ([2, 0, 2] : List ℚ).sum := by
    norm_num [List.sum_cons, List.sum_nil]
  exact ⟨hnn, hpos, c6_weight_normalization _ hnn hpos⟩

/-- C7: whenever two models of the ensemble carry different sample-identity
(filename) sequences, the aggregation pipeline fails with OrderMismatch —
the filename assertion compares every model's sequence against the first
model's, never re-sorting — and no Final Decision Matrix is produced. -/
theorem c7_order_mismatch (models : List EnsembleInput) (m1 m2 : EnsembleInput)
    (hm1 : m1 ∈ models) (hm2 : m2 ∈ models) (hne : m1.2.2 ≠ m2.2.2) :
    runEnsemble models = Except.error AggError.orderMismatch := by
  have herr : checkFilenames (models.map (fun m => m.2.2)) =
      Except.error AggError.orderMismatch := by
    apply checkFilenames_error
    intro hall
    exact hne (hall m1.2.2 (List.mem_map_of_mem _ hm1) m2.2.2 (List.mem_map_of_mem _ hm2))
  unfold runEnsemble
  rw [herr]
  rfl

/-- Two models with permuted filename sequences, for the C7 witness. -/
def c7Models : List EnsembleInput :=
  [(1/2, matOfList [[1]], ["a", "b"]),
   (1/2, matOfList [[1]], ["b", "a"])]

/-- Witness for C7: a permuted filename sequence aborts the aggregation. -/
theorem c7_witness :
    ((1/2, matOfList [[1]], ["a", "b"]) : EnsembleInput) ∈ c7Models ∧
    ((1/2, matOfList [[1]], ["b", "a"]) : EnsembleInput) ∈ c7Models ∧
    (((1/2, matOfList [[1]], ["a", "b"]) : EnsembleInput)).2.2 ≠
      (((1/2, matOfList [[1]], ["b", "a"]) : EnsembleInput)).2.2 ∧
    runEnsemble c7Models = Except.error AggError.orderMismatch := by
  refine ⟨List.mem_cons_self _ _, List.mem_cons_of_mem _ (List.mem_cons_self _ _), by simp, ?_⟩
  exact c7_order_mismatch c7Models _ _ (List.mem_cons_self _ _)
    (List.mem_cons_of_mem _ (List.mem_cons_self _ _)) (by simp)

/-- C8 counterexample: the raw weights `[1, -2]` sum to `-1 ≤ 0`, yet
weight normalization does not fail — the code only divides, so a negative
total silently yields the "normalized" weights `[-1, 2]`. -/
theorem c8_counterexample :
    (([1, -2] : List ℚ).sum ≤ 0) ∧
    normalizeWeights [1, -2] = Except.ok [-1, 2] := by
  constructor
  · norm_num [List.sum_cons, List.sum_nil]
  · norm_num [normalizeWeights, List.sum_cons, List.sum_nil]

/-- C8 amended: normalization fails — Python's division by zero at the
weight-normalization site, the spec's DegenerateWeights — exactly on a
nonempty raw-weight list summing to 0, and then produces no weights;
a strictly negative total is not detected. -/
theorem c8_degenerate_weights (ws : List ℚ) (h0 : ws.sum = 0) (hne : ws ≠ []) :
    normalizeWeights ws = Except.error AggError.degenerateWeights := by
  simp only [normalizeWeights, if_pos (And.intro h0 hne)]

/-- Witness for the amended C8 at raw weights `[1, -1]`. -/
theorem c8_witness :
    (([1, -1] : List ℚ).sum = 0) ∧ (([1, -1] : List ℚ) ≠ []) ∧
    normalizeWeights [1, -1] = Except.error AggError.degenerateWeights := by
  have h0 : ([1, -1] : List ℚ).sum = 0 := by norm_num [List.sum_cons, List.sum_nil]
  have hne : ([1, -1] : List ℚ) ≠ [] := by simp
  exact ⟨h0, hne, c8_degenerate_weights _ h0 hne⟩

/-- Three equal-weight models voting on pairwise disjoint label columns of
the same sample row. -/
def looModels : List WModel :=
  [(1/3, matOfList [[1, 0, 0]]),
   (1/3, matOfList [[0, 1, 0]]),
   (1/3, matOfList [[0, 0, 1]])]

/-- C10: the no-empty-row guarantee does not extend to the ensemble output:
in `looModels` the weights sum to 1 and every per-model ballot row has
row-sum 1 (≥ 1), yet every weighted vote is 1/3 ≤ 1/2, so every cell of the
final decision row is 0 and the final row-sum is 0 — no fallback is applied
after the weighted vote, and a sample can be left with zero labels. -/
theorem c10_final_empty_row :
    ((looModels.map Prod.fst).sum = 1) ∧
    (∀ p ∈ looModels, rowSum p.2 3 0 = 1) ∧
    ensemble_decision looModels 0 0 = 0 ∧ ensemble_decision looModels 0 1 = 0 ∧
    ensemble_decision looModels 0 2 = 0 ∧
    rowSum (ensemble_decision looModels) 3 0 = 0 := by
  have hr : List.range 3 = [0, 1, 2] := rfl
  refine ⟨?_, ?_, ?_, ?_, ?_, ?_⟩
  · norm_num [looModels]
  · intro p hp
    simp only [looModels, List.mem_cons, List.not_mem_nil, or_false] at hp
    rcases hp with rfl | rfl | rfl <;> norm_num [rowSum, matOfList, hr]
  · norm_num [ensemble_decision, weighted_votes, looModels, matOfList]
  · norm_num [ensemble_decision, weighted_votes, looModels, matOfList]
  · norm_num [ensemble_decision, weighted_votes, looModels, matOfList]
  · norm_num [rowSum, hr, ensemble_decision, weighted_votes, looModels, matOfList]

end FoodEnsemble
